import Mathlib

/-!
Shallow embedding of the SharePaste client (src/script.js) for checking the
natural-language specification against the code.

Texts and byte buffers are modelled as `List Nat`: a document is its list of
Unicode code points, a byte buffer is its list of bytes (each < 256), and a
JavaScript string that carries binary or base64 data is its list of UTF-16
code-unit values.  Fallible operations return `Option`.  The third-party
collaborators (the zstd compressor, the PeerJS transport) are black boxes per
the spec; they appear as function parameters constrained by their documented
contracts, or as event traces fed to the handler logic the code installs.
-/

/-! ## Configuration constants (script.js lines 3-6) -/

def MAX_LINES : Nat := 10000

def P2P_LIMIT : Nat := 800

def SHORTEN_LIMIT : Nat := 2000

/-! ## Size classifier (openShareMenu, script.js lines 246-273)

`openShareMenu` branches on `urlLength` in a three-way cascade: above
`SHORTEN_LIMIT` it hides the shorten button and tells the user to use the
live-sync QR (peer transfer); between `P2P_LIMIT` (exclusive) and
`SHORTEN_LIMIT` (inclusive) it shows the shorten button; at or below
`P2P_LIMIT` it QR-encodes the full link directly. -/

inductive ShareMode where
  | Inline
  | Shortened
  | PeerTransfer
deriving DecidableEq

def classify (L : Nat) : ShareMode :=
  if L > SHORTEN_LIMIT then ShareMode.PeerTransfer
  else if L > P2P_LIMIT then ShareMode.Shortened
  else ShareMode.Inline

/-- The QR branch of openShareMenu: at or below P2P_LIMIT the full link is
QR-encoded; otherwise `setupP2PTransfer()` runs.  `true` means inline QR. -/
def qrIsInline (L : Nat) : Bool := decide (L ≤ P2P_LIMIT)

/-- Visibility of the shorten button as set by openShareMenu's cascade:
it is shown only in the middle band. -/
def shortenBtnVisible (L : Nat) : Bool :=
  if L > SHORTEN_LIMIT then false
  else if L > P2P_LIMIT then true
  else false

/-- The shortenLinkBtn click handler guard (script.js line 279):
`if (longUrl.length > SHORTEN_LIMIT) return;` runs before any fetch, so a
shortening request is issued only when the guard passes. -/
def shortenRequestIssued (L : Nat) : Bool :=
  if L > SHORTEN_LIMIT then false else true

/-! ## Line-limit truncation (handleInput, script.js lines 131-148)

`handleInput` scans the text, counting lines from 1; at the newline that would
begin line `MAX_LINES + 1` it records `limitIndex` and truncates the text with
`substring(0, limitIndex)` (the newline itself is discarded). -/

def truncAux : List Nat → Nat → List Nat
  | [], _ => []
  | c :: rest, lc =>
    if c = 10 then
      if lc + 1 > MAX_LINES then [] else c :: truncAux rest (lc + 1)
    else c :: truncAux rest lc

/-- The pure text transformation performed by handleInput. -/
def handleInputText (t : List Nat) : List Nat := truncAux t 1

/-- Number of lines of a text, as counted by handleInput: newlines plus one. -/
def lineCount (t : List Nat) : Nat := t.count 10 + 1

/-! ## Host session bookkeeping (script.js lines 307-315, 384-385)

The orchestrator owns the single `currentPeer` handle.  We track which peer
sessions are still alive (their signalling channel not destroyed) and model
the four code paths that touch the handle:
* `setup`    — `setupP2PTransfer()`: destroys any existing peer, nulls the
  handle, then creates a fresh `Peer` and stores it;
* `closeShareClick` / `dismissModal` — the closeShare / backdrop handlers:
  `if (currentPeer) currentPeer.destroy();` (the handle is not nulled);
* `deliveredTimeout` — the post-delivery timer:
  `if (currentPeer) currentPeer.destroy(); currentPeer = null;`.
Fresh peers get increasing identifiers; `destroyHandle` removes a session
from the alive set (a no-op if it is already gone, matching PeerJS destroy
being idempotent). -/

structure P2PState where
  currentPeer : Option Nat
  alive : List Nat
  nextId : Nat
deriving DecidableEq

def destroyHandle (s : P2PState) (p : Nat) : P2PState :=
  { s with alive := s.alive.erase p }

inductive P2POp where
  | setup
  | closeShareClick
  | dismissModal
  | deliveredTimeout
deriving DecidableEq

def applyOp (s : P2PState) : P2POp → P2PState
  | P2POp.setup =>
    let s1 :=
      match s.currentPeer with
      | some p => { destroyHandle s p with currentPeer := none }
      | none => s
    { currentPeer := some s1.nextId, alive := s1.nextId :: s1.alive,
      nextId := s1.nextId + 1 }
  | P2POp.closeShareClick =>
    match s.currentPeer with
    | some p => destroyHandle s p
    | none => s
  | P2POp.dismissModal =>
    match s.currentPeer with
    | some p => destroyHandle s p
    | none => s
  | P2POp.deliveredTimeout =>
    match s.currentPeer with
    | some p => { destroyHandle s p with currentPeer := none }
    | none => { s with currentPeer := none }

def initP2P : P2PState := ⟨none, [], 0⟩

def runOps (ops : List P2POp) : P2PState := ops.foldl applyOp initP2P

/-! ## Host and guest event handling (script.js lines 316-345)

The host (`setupP2PTransfer`) installs, for every inbound `connection`
event, an `open` handler that sends `{ text: editor.value }` once.  The
guest (`receiveP2P`) installs a `data` handler that applies every message
carrying a `text` field to the editor.  We model the handler logic as a
function of the event trace delivered by the transport collaborator. -/

inductive HostEv where
  | connection (cid : Nat)
  | connOpen (cid : Nat)
deriving DecidableEq

/-- Connection ids the host sends the payload to, given the event trace and
the set of connections whose `open` handler has been installed.  A `connOpen`
for a registered connection triggers `conn.send({ text: ... })`. -/
def hostSends : List HostEv → List Nat → List Nat
  | [], _ => []
  | HostEv.connection c :: es, reg => hostSends es (c :: reg)
  | HostEv.connOpen c :: es, reg =>
    if c ∈ reg then c :: hostSends es reg else hostSends es reg

def isConnOpen : HostEv → Bool
  | HostEv.connOpen _ => true
  | HostEv.connection _ => false

/-- Number of times the guest's `data` handler applies a payload to the
editor, given which inbound messages carry a `text` field: the handler body
runs `if (data && data.text) { editor.value = data.text; ... }` with no
done-state guard. -/
def guestApplies : List Bool → Nat
  | [] => 0
  | hasText :: es => (if hasText then 1 else 0) + guestApplies es

/-! ## Guest connection state (receiveP2P, script.js lines 334-345)

script.js's `receiveP2P` sets a connecting placeholder, creates a `Peer`,
and installs only `open`/`data` handlers — no `error` handler and no
timeout.  The guest display state therefore changes only when a payload
message arrives; nothing ever moves it to a failure state. -/

inductive GuestState where
  | Connecting
  | Done
  | Failed
deriving DecidableEq

inductive GuestEv where
  | peerOpen
  | connData (hasText : Bool)
  | peerError
  | tick
deriving DecidableEq

def guestStep (s : GuestState) (e : GuestEv) : GuestState :=
  match s, e with
  | GuestState.Connecting, GuestEv.connData true => GuestState.Done
  | s, _ => s

def guestRun (evs : List GuestEv) : GuestState :=
  evs.foldl guestStep GuestState.Connecting

/-! ## Chunked binary-to-string conversion (updateUrl, script.js lines 197-200)

`updateUrl` builds the binary string in windows of 8192 bytes:
`binaryString += String.fromCharCode.apply(null, compressed.subarray(i, i + 8192))`.
`String.fromCharCode` truncates each argument to a UTF-16 code unit. -/

def fromCharCodeList (l : List Nat) : List Nat := l.map (fun c => c % 65536)

def chunkedBinaryString (buf : List Nat) : List Nat :=
  if buf = [] then []
  else fromCharCodeList (buf.take 8192) ++ chunkedBinaryString (buf.drop 8192)
termination_by buf.length
decreasing_by
  simp only [List.length_drop]
  rename_i h
  have hl : 0 < buf.length := List.length_pos.mpr h
  omega

theorem chunked_eq_map (buf : List Nat) :
    chunkedBinaryString buf = fromCharCodeList buf := by
  have H : ∀ n b, List.length b ≤ n → chunkedBinaryString b = fromCharCodeList b := by
    intro n
    induction n with
    | zero =>
      intro b hb
      have hb0 : b = [] := List.length_eq_zero.mp (Nat.le_zero.mp hb)
      rw [chunkedBinaryString]
      simp [hb0, fromCharCodeList]
    | succ n ih =>
      intro b hb
      rw [chunkedBinaryString]
      by_cases h : b = []
      · simp [h, fromCharCodeList]
      · rw [if_neg h]
        have hl : 0 < b.length := List.length_pos.mpr h
        rw [ih (b.drop 8192) (by simp [List.length_drop]; omega)]
        simp [fromCharCodeList, ← List.map_append]
  exact H buf.length buf le_rfl

/-! ## Base64 and the URL-safe fragment codec (script.js lines 193-225)

`updateUrl` computes `btoa(binaryString).replace(/\+/g, '-').replace(/\//g, '_')
.replace(/=+$/, '')`; `decodeUrl` computes the inverse: `hash.replace` mapping hyphen back to plus and underscore back to slash, pads with `=` to a multiple of 4, and calls `atob`.
`btoa` is standard base64 over a latin1 string (it throws when a code unit
exceeds 255); `atob` is the WHATWG forgiving-base64 decoder. -/

/-- The base64 alphabet, by code point: A-Z, a-z, 0-9, plus, slash. -/
def b64Table : List Nat :=
  [65, 66, 67, 68, 69, 70, 71, 72, 73, 74, 75, 76, 77, 78, 79, 80, 81, 82,
   83, 84, 85, 86, 87, 88, 89, 90,
   97, 98, 99, 100, 101, 102, 103, 104, 105, 106, 107, 108, 109, 110, 111,
   112, 113, 114, 115, 116, 117, 118, 119, 120, 121, 122,
   48, 49, 50, 51, 52, 53, 54, 55, 56, 57, 43, 47]

def idxOf : List Nat → Nat → Option Nat
  | [], _ => none
  | x :: xs, c => if x = c then some 0 else (idxOf xs c).map (· + 1)

/-- Character (code point) for a sextet value. -/
def b64Char (n : Nat) : Nat := b64Table.getD n 65

/-- Sextet value of a character, `none` when outside the alphabet. -/
def b64Index (c : Nat) : Option Nat := idxOf b64Table c

/-- Standard base64 encoding of a byte list, with `=` padding (the `btoa`
output format), three bytes to four characters. -/
def b64encode : List Nat → List Nat
  | [] => []
  | [b0] => [b64Char (b0 / 4), b64Char (b0 % 4 * 16), 61, 61]
  | [b0, b1] =>
    [b64Char (b0 / 4), b64Char (b0 % 4 * 16 + b1 / 16), b64Char (b1 % 16 * 4), 61]
  | b0 :: b1 :: b2 :: rest =>
    b64Char (b0 / 4) :: b64Char (b0 % 4 * 16 + b1 / 16) ::
    b64Char (b1 % 16 * 4 + b2 / 64) :: b64Char (b2 % 64) :: b64encode rest

/-- The `replace(/\+/g, '-').replace(/\//g, '_')` substitution, per character. -/
def subst (c : Nat) : Nat := if c = 43 then 45 else if c = 47 then 95 else c

/-- The inverse substitution of decodeUrl: hyphen back to plus (43), underscore back to slash (47). -/
def unsubst (c : Nat) : Nat := if c = 45 then 43 else if c = 95 then 47 else c

/-- The `replace(/=+$/, '')` padding strip: drop every trailing `=` (61). -/
def strip61 (l : List Nat) : List Nat :=
  (l.reverse.dropWhile (fun c => c == 61)).reverse

/-- The `while (base64.length % 4) base64 += '='` padding loop of decodeUrl:
append `=` until the length is a multiple of 4. -/
def padB64 (l : List Nat) : List Nat :=
  l ++ List.replicate ((4 - l.length % 4) % 4) 61

/-- Step of the forgiving-base64 decoder: when the length is a multiple of
four, up to two trailing `=` are removed. -/
def stripPad12 (l : List Nat) : List Nat :=
  match l.reverse with
  | c1 :: c2 :: r =>
    if c1 = 61 then (if c2 = 61 then r.reverse else (c2 :: r).reverse) else l
  | [c1] => if c1 = 61 then [] else l
  | [] => l

/-- ASCII whitespace removed by forgiving-base64 decoding. -/
def isB64Ws (c : Nat) : Bool := c == 9 || c == 10 || c == 12 || c == 13 || c == 32

/-- Main loop of forgiving-base64 decoding: four characters to three bytes,
with a final group of two or three characters yielding one or two bytes
(leftover low bits discarded).  Any character outside the alphabet, or a
leftover single character, fails. -/
def mainDecode : List Nat → Option (List Nat)
  | [] => some []
  | c0 :: c1 :: c2 :: c3 :: rest =>
    match b64Index c0, b64Index c1, b64Index c2, b64Index c3, mainDecode rest with
    | some s0, some s1, some s2, some s3, some r =>
      some ((s0 * 4 + s1 / 16) :: (s1 % 16 * 16 + s2 / 4) :: (s2 % 4 * 64 + s3) :: r)
    | _, _, _, _, _ => none
  | [c0, c1] =>
    match b64Index c0, b64Index c1 with
    | some s0, some s1 => some [s0 * 4 + s1 / 16]
    | _, _ => none
  | [c0, c1, c2] =>
    match b64Index c0, b64Index c1, b64Index c2 with
    | some s0, some s1, some s2 => some [s0 * 4 + s1 / 16, s1 % 16 * 16 + s2 / 4]
    | _, _, _ => none
  | _ => none

/-- The `atob` built-in: WHATWG forgiving-base64 decode (remove ASCII
whitespace; when the length is a multiple of four, strip up to two trailing
`=`; fail when the remaining length is 1 mod 4; decode, failing on any
character outside the alphabet). -/
def atobModel (l : List Nat) : Option (List Nat) :=
  let d1 := l.filter (fun c => !isB64Ws c)
  let d2 := if d1.length % 4 = 0 then stripPad12 d1 else d1
  if d2.length % 4 = 1 then none else mainDecode d2

/-- The `btoa` built-in: fails when a code unit exceeds 255, otherwise
standard base64. -/
def btoaModel (l : List Nat) : Option (List Nat) :=
  if l.all (fun c => decide (c < 256)) then some (b64encode l) else none

/-! ## UTF-8 (the TextEncoder / TextDecoder collaborators)

`new TextEncoder().encode(text)` produces the UTF-8 bytes of the text;
`new TextDecoder().decode(bytes)` decodes UTF-8 without the fatal flag, so
malformed input produces U+FFFD replacement characters instead of an error.
The exact resynchronization after a malformed sequence is simplified here
(the bytes examined so far are consumed); it does not matter for any claim,
since the verified paths only ever decode well-formed encoder output. -/

def utf8EncodeChar (c : Nat) : List Nat :=
  if c < 128 then [c]
  else if c < 2048 then [192 + c / 64, 128 + c % 64]
  else if c < 65536 then [224 + c / 4096, 128 + c / 64 % 64, 128 + c % 64]
  else [240 + c / 262144, 128 + c / 4096 % 64, 128 + c / 64 % 64, 128 + c % 64]

def utf8Encode : List Nat → List Nat
  | [] => []
  | c :: rest => utf8EncodeChar c ++ utf8Encode rest

/-- Continuation byte test. -/
def isCont (b : Nat) : Bool := decide (128 ≤ b ∧ b ≤ 191)

/-- First-continuation-byte range for a three-byte lead (WHATWG utf-8
decoder: lead E0 narrows to A0-BF, lead ED narrows to 80-9F). -/
def cont3 (b b1 : Nat) : Bool :=
  if b = 224 then decide (160 ≤ b1 ∧ b1 ≤ 191)
  else if b = 237 then decide (128 ≤ b1 ∧ b1 ≤ 159)
  else isCont b1

/-- First-continuation-byte range for a four-byte lead (lead F0 narrows to
90-BF, lead F4 narrows to 80-8F). -/
def cont4 (b b1 : Nat) : Bool :=
  if b = 240 then decide (144 ≤ b1 ∧ b1 ≤ 191)
  else if b = 244 then decide (128 ≤ b1 ∧ b1 ≤ 143)
  else isCont b1

/-- One step of the WHATWG utf-8 decoder: given the lead byte and the bytes
after it, the scalar value produced (65533 on a malformed sequence) and how
many continuation bytes are consumed. -/
def utf8Step (b : Nat) (rest : List Nat) : Nat × Nat :=
  if b < 128 then (b, 0)
  else if b < 194 then (65533, 0)
  else if b < 224 then
    match rest with
    | b1 :: _ =>
      if isCont b1 then ((b - 192) * 64 + (b1 - 128), 1) else (65533, 1)
    | [] => (65533, 0)
  else if b < 240 then
    match rest with
    | b1 :: b2 :: _ =>
      if cont3 b b1 && isCont b2 then
        ((b - 224) * 4096 + (b1 - 128) * 64 + (b2 - 128), 2)
      else (65533, 2)
    | [b1] => (65533, 1)
    | [] => (65533, 0)
  else if b < 245 then
    match rest with
    | b1 :: b2 :: b3 :: _ =>
      if cont4 b b1 && isCont b2 && isCont b3 then
        ((b - 240) * 262144 + (b1 - 128) * 4096 + (b2 - 128) * 64
          + (b3 - 128), 3)
      else (65533, 3)
    | [b1, b2] => (65533, 2)
    | [b1] => (65533, 1)
    | [] => (65533, 0)
  else (65533, 0)

def utf8Decode : List Nat → List Nat
  | [] => []
  | b :: rest =>
    (utf8Step b rest).1 :: utf8Decode (rest.drop (utf8Step b rest).2)
termination_by l => l.length
decreasing_by
  simp only [List.length_drop, List.length_cons]
  omega

/-- A Unicode scalar value: what a well-formed document's code points are. -/
def validScalar (c : Nat) : Prop := c < 1114112 ∧ ¬(55296 ≤ c ∧ c ≤ 57343)

instance (c : Nat) : Decidable (validScalar c) := by
  unfold validScalar; infer_instance

/-! ## The full encode and decode pipelines

`encodeFull` is updateUrl's fragment construction (script.js lines 193-202)
with the compressor abstracted: UTF-8 encode, `compress(buffer, 4)`, chunked
binary-to-string, `btoa`, URL-safe substitution, padding strip.  `decodeFull`
is decodeUrl's inverse (lines 211-225) with the decompressor abstracted:
reverse substitution, re-pad, `atob`, decompress, UTF-8 decode. -/

def encodeFull (zc : List Nat → Nat → List Nat) (t : List Nat) : Option (List Nat) :=
  match btoaModel (chunkedBinaryString (zc (utf8Encode t) 4)) with
  | none => none
  | some b64 => some (strip61 (b64.map subst))

def decodeFull (zd : List Nat → Option (List Nat)) (hash : List Nat) :
    Option (List Nat) :=
  match atobModel (padB64 (hash.map unsubst)) with
  | none => none
  | some bytes =>
    match zd bytes with
    | none => none
    | some raw => some (utf8Decode raw)

/-- The placeholder document decodeUrl's catch block writes to the editor:
the code points of `// ERROR: Link data corrupted.`. -/
def corruptPlaceholder : List Nat :=
  [47, 47, 32, 69, 82, 82, 79, 82, 58, 32, 76, 105, 110, 107, 32, 100, 97,
   116, 97, 32, 99, 111, 114, 114, 117, 112, 116, 101, 100, 46]

/-- Editor content after decodeUrl runs on a fragment: the decoded text on
success, the placeholder on failure, both passed through handleInput. -/
def editorAfterDecode (zd : List Nat → Option (List Nat)) (hash : List Nat) :
    List Nat :=
  match decodeFull zd hash with
  | some t => handleInputText t
  | none => handleInputText corruptPlaceholder

/-- Editor content after receiveP2P's data handler applies a payload:
`editor.value = data.text; handleInput();`. -/
def editorAfterReceive (payload : List Nat) : List Nat := handleInputText payload

/-! ## Supporting lemmas: truncation -/

theorem truncAux_count (t : List Nat) :
    ∀ lc, lc ≤ MAX_LINES → (truncAux t lc).count 10 + lc ≤ MAX_LINES := by
  induction t with
  | nil => intro lc hlc; simpa [truncAux] using hlc
  | cons c rest ih =>
    intro lc hlc
    by_cases hc : c = 10
    · subst hc
      simp only [truncAux, if_pos rfl]
      by_cases hmax : lc + 1 > MAX_LINES
      · simpa [hmax] using hlc
      · rw [if_neg hmax]
        have h2 := ih (lc + 1) (by omega)
        simp only [List.count_cons, beq_self_eq_true, if_pos]
        omega
    · simp only [truncAux, if_neg hc]
      have h2 := ih lc hlc
      have hne : (c == 10) = false := by simpa using hc
      simp [List.count_cons, hne]
      omega

theorem handleInputText_lineCount (t : List Nat) :
    lineCount (handleInputText t) ≤ MAX_LINES := by
  have := truncAux_count t 1 (by simp [MAX_LINES])
  simpa [lineCount, handleInputText] using this

/-! ## Claim theorems: classifier, shortener, chunking, line limit -/

/-- C2: the size classifier is a three-way branch on share-URL length with
ordered thresholds P2P_LIMIT and SHORTEN_LIMIT: lengths at or below
P2P_LIMIT are Inline, lengths in (P2P_LIMIT, SHORTEN_LIMIT] are Shortened,
lengths above SHORTEN_LIMIT are PeerTransfer; in particular the four
boundary values classify as stated. -/
theorem classify_three_way_boundaries :
    (∀ L, (L ≤ P2P_LIMIT → classify L = ShareMode.Inline) ∧
      (P2P_LIMIT < L ∧ L ≤ SHORTEN_LIMIT → classify L = ShareMode.Shortened) ∧
      (SHORTEN_LIMIT < L → classify L = ShareMode.PeerTransfer)) ∧
    classify P2P_LIMIT = ShareMode.Inline ∧
    classify (P2P_LIMIT + 1) = ShareMode.Shortened ∧
    classify SHORTEN_LIMIT = ShareMode.Shortened ∧
    classify (SHORTEN_LIMIT + 1) = ShareMode.PeerTransfer := by
  refine ⟨fun L => ⟨?_, ?_, ?_⟩, by decide, by decide, by decide, by decide⟩ <;>
    · intro h
      unfold classify P2P_LIMIT SHORTEN_LIMIT at *
      split_ifs <;> first | rfl | omega

/-- Witness: length 801 (one above P2P_LIMIT) classifies as Shortened. -/
theorem classify_three_way_boundaries_witness :
    classify 801 = ShareMode.Shortened :=
  (classify_three_way_boundaries.1 801).2.1 (by decide)

/-- C7: above SHORTEN_LIMIT no shortening request is ever issued — the click
handler's guard blocks the fetch, the button is hidden, and the QR branch
goes straight to peer transfer. -/
theorem hardcap_never_calls_shortener :
    ∀ L, SHORTEN_LIMIT < L →
      shortenRequestIssued L = false ∧ shortenBtnVisible L = false ∧
      qrIsInline L = false ∧ classify L = ShareMode.PeerTransfer := by
  intro L h
  refine ⟨?_, ?_, ?_, ?_⟩
  · unfold shortenRequestIssued at *; split_ifs <;> first | rfl | omega
  · unfold shortenBtnVisible at *; split_ifs <;> first | rfl | omega
  · unfold qrIsInline P2P_LIMIT SHORTEN_LIMIT at *
    simp only [decide_eq_false_iff_not]
    omega
  · unfold classify at *; split_ifs <;> first | rfl | omega

/-- Witness: at length 2001 (one above SHORTEN_LIMIT) no shortening request
is issued and the flow is peer transfer. -/
theorem hardcap_never_calls_shortener_witness :
    shortenRequestIssued 2001 = false ∧ shortenBtnVisible 2001 = false ∧
    qrIsInline 2001 = false ∧ classify 2001 = ShareMode.PeerTransfer :=
  hardcap_never_calls_shortener 2001 (by decide)

/-- C9: the chunked binary-to-string conversion over 8192-byte windows
produces exactly the same string as the unchunked character-by-character
conversion of the whole buffer. -/
theorem chunking_preserves_conversion :
    ∀ buf : List Nat, chunkedBinaryString buf = fromCharCodeList buf :=
  chunked_eq_map

/-- C10: every document entering the editor through decode or peer receive
passes through the input handler, so the editor afterwards holds at most
MAX_LINES lines; and the handler genuinely discards content beyond that
line (a 10001-newline document is not preserved). -/
theorem decode_and_receive_respect_max_lines :
    (∀ zd hash, lineCount (editorAfterDecode zd hash) ≤ MAX_LINES) ∧
    (∀ payload, lineCount (editorAfterReceive payload) ≤ MAX_LINES) ∧
    handleInputText (List.replicate 10001 10) ≠ List.replicate 10001 10 := by
  refine ⟨?_, ?_, ?_⟩
  · intro zd hash
    unfold editorAfterDecode
    rcases decodeFull zd hash with _ | t
    · exact handleInputText_lineCount _
    · exact handleInputText_lineCount _
  · intro payload
    exact handleInputText_lineCount payload
  · intro hEq
    have h1 := handleInputText_lineCount (List.replicate 10001 10)
    rw [hEq] at h1
    have h2 : (List.replicate 10001 (10 : Nat)).count 10 = 10001 := by
      rw [List.count_replicate]
      norm_num
    unfold lineCount MAX_LINES at h1
    omega

/-! ## Supporting lemmas: session bookkeeping invariant -/

/-- Invariant maintained by the orchestrator over the session handle: every
alive session is the one currently held, alive sessions are distinct, and
all session ids ever handed out are below the freshness counter. -/
def P2PInv (s : P2PState) : Prop :=
  (∀ p ∈ s.alive, s.currentPeer = some p) ∧
  s.alive.Nodup ∧
  (∀ p ∈ s.alive, p < s.nextId) ∧
  (∀ p, s.currentPeer = some p → p < s.nextId)

theorem applyOp_inv {s : P2PState} (h : P2PInv s) (op : P2POp) :
    P2PInv (applyOp s op) := by
  obtain ⟨h1, h2, h3, h4⟩ := h
  cases op with
  | setup =>
    rcases hc : s.currentPeer with _ | p
    · have halive : s.alive = [] := by
        cases ha : s.alive with
        | nil => rfl
        | cons q qs =>
          have := h1 q (by rw [ha]; exact List.mem_cons_self q qs)
          rw [hc] at this
          exact absurd this (by simp)
      refine ⟨?_, ?_, ?_, ?_⟩ <;>
        simp [applyOp, hc, halive, destroyHandle]
    · have herase : s.alive.erase p = [] ∨ ∀ q, q ∉ s.alive.erase p := by
        right
        intro q hq
        have hq2 := (h2.mem_erase_iff.mp hq)
        have := h1 q hq2.2
        rw [hc] at this
        have : q = p := by injection this with h; omega
        exact hq2.1 this
      rcases herase with h5 | h5
      · refine ⟨?_, ?_, ?_, ?_⟩ <;> simp [applyOp, hc, destroyHandle, h5]
      · have h6 : s.alive.erase p = [] := by
          cases he : s.alive.erase p with
          | nil => rfl
          | cons q qs =>
            exact absurd (by rw [he]; exact List.mem_cons_self q qs) (h5 q)
        refine ⟨?_, ?_, ?_, ?_⟩ <;> simp [applyOp, hc, destroyHandle, h6]
  | closeShareClick =>
    rcases hc : s.currentPeer with _ | p
    · simpa [applyOp, hc] using ⟨h1, h2, h3, h4⟩
    · refine ⟨?_, ?_, ?_, ?_⟩
      · intro q hq
        simp only [applyOp, hc, destroyHandle] at hq ⊢
        have h5 := h1 q (h2.mem_erase_iff.mp hq).2
        rw [hc] at h5
        exact h5
      · simp only [applyOp, hc, destroyHandle]
        exact h2.erase p
      · intro q hq
        simp only [applyOp, hc, destroyHandle] at hq ⊢
        exact h3 q (h2.mem_erase_iff.mp hq).2
      · intro q hq
        simp only [applyOp, hc, destroyHandle] at hq ⊢
        exact h4 q (hc.trans hq)
  | dismissModal =>
    rcases hc : s.currentPeer with _ | p
    · simpa [applyOp, hc] using ⟨h1, h2, h3, h4⟩
    · refine ⟨?_, ?_, ?_, ?_⟩
      · intro q hq
        simp only [applyOp, hc, destroyHandle] at hq ⊢
        have h5 := h1 q (h2.mem_erase_iff.mp hq).2
        rw [hc] at h5
        exact h5
      · simp only [applyOp, hc, destroyHandle]
        exact h2.erase p
      · intro q hq
        simp only [applyOp, hc, destroyHandle] at hq ⊢
        exact h3 q (h2.mem_erase_iff.mp hq).2
      · intro q hq
        simp only [applyOp, hc, destroyHandle] at hq ⊢
        exact h4 q (hc.trans hq)
  | deliveredTimeout =>
    rcases hc : s.currentPeer with _ | p
    · refine ⟨?_, ?_, ?_, ?_⟩
      · intro q hq
        simp only [applyOp, hc] at hq
        have := h1 q hq
        rw [hc] at this
        exact absurd this (by simp)
      · simpa [applyOp, hc] using h2
      · intro q hq
        simp only [applyOp, hc] at hq ⊢
        exact h3 q hq
      · intro q hq
        simp only [applyOp, hc] at hq
        exact absurd hq (by simp)
    · refine ⟨?_, ?_, ?_, ?_⟩
      · intro q hq
        simp only [applyOp, hc, destroyHandle] at hq
        have hq2 := h2.mem_erase_iff.mp hq
        have := h1 q hq2.2
        rw [hc] at this
        have : q = p := by injection this with h; omega
        exact absurd this hq2.1
      · simp only [applyOp, hc, destroyHandle]
        exact h2.erase p
      · intro q hq
        simp only [applyOp, hc, destroyHandle] at hq ⊢
        exact h3 q (h2.mem_erase_iff.mp hq).2
      · intro q hq
        simp only [applyOp, hc, destroyHandle] at hq
        exact absurd hq (by simp)

theorem runOps_inv (ops : List P2POp) : P2PInv (runOps ops) := by
  have H : ∀ (l : List P2POp) (s : P2PState), P2PInv s → P2PInv (l.foldl applyOp s) := by
    intro l
    induction l with
    | nil => intro s hs; exact hs
    | cons op rest ih => intro s hs; exact ih (applyOp s op) (applyOp_inv hs op)
  refine H ops initP2P ?_
  refine ⟨?_, ?_, ?_, ?_⟩ <;> simp [initP2P]

theorem inv_alive_le_one {s : P2PState} (h : P2PInv s) : s.alive.length ≤ 1 := by
  obtain ⟨h1, h2, -, -⟩ := h
  cases ha : s.alive with
  | nil => simp
  | cons a tail =>
    cases ht : tail with
    | nil => simp
    | cons b tail2 =>
      have hha := h1 a (by rw [ha]; exact List.mem_cons_self _ _)
      have hhb := h1 b (by rw [ha, ht]; exact List.mem_cons_of_mem _ (List.mem_cons_self _ _))
      have hab : a = b := by rw [hha] at hhb; exact Option.some.inj hhb
      rw [ha, ht] at h2
      have := (List.nodup_cons.mp h2).1
      exact absurd (by rw [hab]; exact List.mem_cons_self _ _) this

/-- C4: at most one peer session is active per tab after any sequence of
session operations; destroying an already-destroyed session is a no-op; and
creating a new Host session removes any previously current session from the
alive set (destroy-before-create). -/
theorem at_most_one_peer_session :
    ∀ ops : List P2POp,
      (runOps ops).alive.length ≤ 1 ∧
      (∀ p, destroyHandle (destroyHandle (runOps ops) p) p
          = destroyHandle (runOps ops) p) ∧
      (∀ p, (runOps ops).currentPeer = some p →
        p ∉ (applyOp (runOps ops) P2POp.setup).alive) := by
  intro ops
  have hinv := runOps_inv ops
  obtain ⟨h1, h2, h3, h4⟩ := hinv
  refine ⟨inv_alive_le_one ⟨h1, h2, h3, h4⟩, ?_, ?_⟩
  · intro p
    have hnm : p ∉ (runOps ops).alive.erase p := by
      intro hmem
      exact (h2.mem_erase_iff.mp hmem).1 rfl
    simp only [destroyHandle]
    rw [List.erase_of_not_mem hnm]
  · intro p hp hmem
    simp only [applyOp, hp, destroyHandle] at hmem
    rcases List.mem_cons.mp hmem with hmem1 | hmem2
    · have := h4 p hp
      omega
    · exact (h2.mem_erase_iff.mp hmem2).1 rfl

/-- Witness: after one setup the current session id 0 is gone from the alive
set of the state produced by a second setup, the alive set has at most one
element, and destroy is idempotent on session 0. -/
theorem at_most_one_peer_session_witness :
    (0 : Nat) ∉ (applyOp (runOps [P2POp.setup]) P2POp.setup).alive :=
  (at_most_one_peer_session [P2POp.setup]).2.2 0 (by decide)

/-! ## Supporting lemmas: per-event delivery accounting -/

theorem hostSends_le_connOpens (es : List HostEv) :
    ∀ reg, (hostSends es reg).length ≤ (es.filter isConnOpen).length := by
  induction es with
  | nil => intro reg; simp [hostSends]
  | cons e rest ih =>
    intro reg
    cases e with
    | connection c => simpa [hostSends, isConnOpen, List.filter] using ih (c :: reg)
    | connOpen c =>
      simp only [hostSends, List.filter, isConnOpen]
      by_cases hm : c ∈ reg
      · rw [if_pos hm]
        simpa using ih reg
      · rw [if_neg hm]
        have := ih reg
        simp only [List.length_cons]
        omega

theorem guestApplies_eq_count (ds : List Bool) : guestApplies ds = ds.count true := by
  induction ds with
  | nil => simp [guestApplies]
  | cons d rest ih =>
    cases d <;> simp [guestApplies, ih, List.count_cons] <;> omega

/-- Counterexample to C5: on a session whose transport delivers two inbound
connections that both open (two guests scanning before teardown), the Host
sends the payload twice within that one session; and a Guest whose
connection delivers a second text-bearing message applies it again instead
of ignoring it (the data handler has no done-state guard). -/
theorem double_send_and_reprocess_counterexample :
    ¬((hostSends [HostEv.connection 1, HostEv.connOpen 1,
        HostEv.connection 2, HostEv.connOpen 2] []).length ≤ 1) ∧
    guestApplies [true, true] = 2 := by decide

/-- C5 amended: the Host sends at most one payload per connection-open event
(so a session whose transport delivers at most one connection-open sees at
most one payload sent), and the Guest applies exactly one payload per
text-bearing data event (so a connection that delivers at most one
text-bearing message is applied at most once). -/
theorem single_delivery_per_event :
    (∀ es : List HostEv, ∀ reg,
      (hostSends es reg).length ≤ (es.filter isConnOpen).length ∧
      ((es.filter isConnOpen).length ≤ 1 → (hostSends es reg).length ≤ 1)) ∧
    (∀ ds : List Bool,
      guestApplies ds = ds.count true ∧
      (ds.count true ≤ 1 → guestApplies ds ≤ 1)) := by
  constructor
  · intro es reg
    refine ⟨hostSends_le_connOpens es reg, ?_⟩
    intro h1
    exact le_trans (hostSends_le_connOpens es reg) h1
  · intro ds
    refine ⟨guestApplies_eq_count ds, ?_⟩
    intro h1
    rw [guestApplies_eq_count ds]
    exact h1

/-- Witness: a session with exactly one connection-open results in at most
one host send, and a single text-bearing message is applied at most once. -/
theorem single_delivery_per_event_witness :
    (hostSends [HostEv.connection 1, HostEv.connOpen 1] []).length ≤ 1 ∧
    guestApplies [true] ≤ 1 :=
  ⟨(single_delivery_per_event.1 [HostEv.connection 1, HostEv.connOpen 1] []).2
      (by decide),
   (single_delivery_per_event.2 [true]).2 (by decide)⟩

/-- C8 fails on the code: script.js's receiveP2P installs no timeout and no
error handler, so a Guest stuck in Connecting never transitions to Failed —
it stays on the connecting placeholder forever, whatever events (including
arbitrarily many clock ticks or transport errors) arrive without a payload. -/
theorem guest_connecting_never_times_out :
    (∀ evs : List GuestEv, guestRun evs ≠ GuestState.Failed) ∧
    (∀ n, guestRun (List.replicate n GuestEv.tick ++ [GuestEv.peerError])
        = GuestState.Connecting) := by
  constructor
  · have hstep : ∀ s e, guestStep s e = GuestState.Failed → s = GuestState.Failed := by
      intro s e
      cases s <;> cases e <;>
        first
        | (rename_i b; cases b <;> simp [guestStep])
        | simp [guestStep]
    have H : ∀ (evs : List GuestEv) (s : GuestState), s ≠ GuestState.Failed →
        evs.foldl guestStep s ≠ GuestState.Failed := by
      intro evs
      induction evs with
      | nil => intro s hs; exact hs
      | cons e rest ih =>
        intro s hs
        exact ih (guestStep s e) (fun hf => hs (hstep s e hf))
    intro evs
    exact H evs GuestState.Connecting (by simp)
  · intro n
    have H : ∀ m, (List.replicate m GuestEv.tick).foldl guestStep
        GuestState.Connecting = GuestState.Connecting := by
      intro m
      induction m with
      | zero => rfl
      | succ m ih => simpa [List.replicate_succ, guestStep] using ih
    unfold guestRun
    rw [List.foldl_append, H n]
    rfl

/-! ## Supporting lemmas: the base64 alphabet -/

theorem b64Char_lt_ne : ∀ n, n < 64 →
    b64Char n ∈ b64Table ∧ b64Char n ≠ 61 ∧ b64Char n ≠ 45 ∧ b64Char n ≠ 95 := by
  decide

theorem b64Table_props : ∀ c ∈ b64Table,
    c ≠ 61 ∧ c ≠ 45 ∧ c ≠ 95 ∧ isB64Ws c = false := by
  decide

theorem b64Char_mem (n : Nat) : b64Char n ∈ b64Table := by
  by_cases h : n < 64
  · exact (b64Char_lt_ne n h).1
  · unfold b64Char
    rw [List.getD_eq_default _ _ (by unfold b64Table; simp; omega)]
    decide

theorem b64Char_ne61 (n : Nat) : b64Char n ≠ 61 :=
  (b64Table_props _ (b64Char_mem n)).1

theorem b64Index_b64Char : ∀ n, n < 64 → b64Index (b64Char n) = some n := by
  decide

/-! ## Supporting lemmas: trailing-padding stripping -/

theorem head?_dropWhile_false {p : Nat → Bool} {l : List Nat} {a : Nat}
    (h : (l.dropWhile p).head? = some a) : p a = false := by
  induction l with
  | nil => simp [List.dropWhile] at h
  | cons x xs ih =>
    rw [List.dropWhile_cons] at h
    by_cases hp : p x
    · rw [if_pos hp] at h; exact ih h
    · rw [if_neg hp] at h
      simp only [List.head?_cons, Option.some.injEq] at h
      rw [← h]
      exact Bool.eq_false_iff.mpr hp

theorem strip61_getLast (l : List Nat) : (strip61 l).getLast? ≠ some 61 := by
  unfold strip61
  rw [List.getLast?_reverse]
  intro h
  have := head?_dropWhile_false h
  simp at this

theorem strip61_eq_self {l : List Nat} (h : l.getLast? ≠ some 61) :
    strip61 l = l := by
  unfold strip61
  cases hr : l.reverse with
  | nil =>
    have : l = [] := by simpa using congrArg List.reverse hr
    simp [this, List.dropWhile]
  | cons c r =>
    have hlast : l.getLast? = some c := by
      rw [← List.head?_reverse, hr]; rfl
    have hc : ¬(c == 61) = true := by
      simp only [beq_iff_eq]
      intro hc
      exact h (by rw [hlast, hc])
    rw [List.dropWhile_cons, if_neg hc, ← hr, List.reverse_reverse]

theorem strip61_eq_nil_iff {l : List Nat} :
    strip61 l = [] ↔ ∀ x ∈ l, x = 61 := by
  unfold strip61
  rw [List.reverse_eq_nil_iff, List.dropWhile_eq_nil_iff]
  constructor
  · intro h x hx
    simpa using h x (List.mem_reverse.mpr hx)
  · intro h x hx
    simpa using h x (List.mem_reverse.mp hx)

theorem strip61_mem {l : List Nat} {c : Nat} (h : c ∈ strip61 l) : c ∈ l := by
  unfold strip61 at h
  rw [List.mem_reverse] at h
  exact List.mem_reverse.mp ((List.dropWhile_sublist _).mem h)

theorem strip61_append {xs ys : List Nat} (h : strip61 ys ≠ []) :
    strip61 (xs ++ ys) = xs ++ strip61 ys := by
  unfold strip61 at *
  rw [List.reverse_append, List.dropWhile_append]
  have hne : (List.dropWhile (fun c => c == 61) ys.reverse).isEmpty = false := by
    rcases he : List.dropWhile (fun c => c == 61) ys.reverse with _ | ⟨a, r⟩
    · exact absurd (by rw [he]; rfl) h
    · rfl
  rw [if_neg (by rw [hne]; simp)]
  simp [List.reverse_append]

theorem strip61_append_nil {xs ys : List Nat} (h : strip61 ys = []) :
    strip61 (xs ++ ys) = strip61 xs := by
  unfold strip61 at *
  rw [List.reverse_append, List.dropWhile_append]
  have hne : (List.dropWhile (fun c => c == 61) ys.reverse).isEmpty = true := by
    have : List.dropWhile (fun c => c == 61) ys.reverse = [] := by
      simpa using congrArg List.reverse h
    rw [this]; rfl
  rw [if_pos hne]

theorem strip61_map {f : Nat → Nat} (hf : ∀ c, (f c == 61) = (c == 61))
    (l : List Nat) : strip61 (l.map f) = (strip61 l).map f := by
  unfold strip61
  rw [← List.map_reverse, List.dropWhile_map]
  have hfun : ((fun c => c == 61) ∘ f) = (fun c : Nat => c == 61) := by
    funext c
    exact hf c
  rw [hfun, List.map_reverse]

/-! ## Supporting lemmas: base64 encode and its decode round trip -/

theorem b64encode_has_non61 : ∀ bs : List Nat, bs ≠ [] →
    ∃ c ∈ b64encode bs, c ≠ 61 := by
  intro bs hne
  rcases bs with _ | ⟨b0, _ | ⟨b1, _ | ⟨b2, rest⟩⟩⟩
  · exact absurd rfl hne
  · exact ⟨b64Char (b0 / 4), by simp [b64encode], b64Char_ne61 _⟩
  · exact ⟨b64Char (b0 / 4), by simp [b64encode], b64Char_ne61 _⟩
  · exact ⟨b64Char (b0 / 4), by simp [b64encode], b64Char_ne61 _⟩

theorem strip61_b64encode_ne_nil {bs : List Nat} (hne : bs ≠ []) :
    strip61 (b64encode bs) ≠ [] := by
  intro h
  obtain ⟨c, hc, hc61⟩ := b64encode_has_non61 bs hne
  exact hc61 (strip61_eq_nil_iff.mp h c hc)

theorem b64_core : ∀ (n : Nat) (bs : List Nat), bs.length ≤ n →
    (∀ x ∈ bs, x < 256) →
    mainDecode (strip61 (b64encode bs)) = some bs ∧
    (strip61 (b64encode bs)).length % 4 ≠ 1 ∧
    (∀ c ∈ b64encode bs, c ∈ b64Table ∨ c = 61) := by
  intro n
  induction n with
  | zero =>
    intro bs hlen _
    have hb0 : bs = [] := List.length_eq_zero.mp (Nat.le_zero.mp hlen)
    subst hb0
    refine ⟨by simp [b64encode, strip61, List.dropWhile, mainDecode], ?_, ?_⟩ <;>
      simp [b64encode, strip61, List.dropWhile]
  | succ n ih =>
    intro bs hlen hb
    rcases bs with _ | ⟨b0, _ | ⟨b1, _ | ⟨b2, rest⟩⟩⟩
    · refine ⟨by simp [b64encode, strip61, List.dropWhile, mainDecode], ?_, ?_⟩ <;>
        simp [b64encode, strip61, List.dropWhile]
    · -- one trailing byte: two characters and two padding chars
      have h0 : b0 < 256 := hb b0 (by simp)
      have henc : b64encode [b0] = [b64Char (b0 / 4), b64Char (b0 % 4 * 16)] ++ [61, 61] := by
        simp [b64encode]
      have hstrip : strip61 (b64encode [b0]) = [b64Char (b0 / 4), b64Char (b0 % 4 * 16)] := by
        rw [henc, strip61_append_nil (by decide)]
        exact strip61_eq_self (by
          simp only [List.getLast?]
          intro h
          exact b64Char_ne61 _ (by injection h))
      refine ⟨?_, ?_, ?_⟩
      · rw [hstrip]
        have hi0 : b64Index (b64Char (b0 / 4)) = some (b0 / 4) :=
          b64Index_b64Char _ (by omega)
        have hi1 : b64Index (b64Char (b0 % 4 * 16)) = some (b0 % 4 * 16) :=
          b64Index_b64Char _ (by omega)
        simp only [mainDecode, hi0, hi1, Option.some.injEq]
        have : b0 / 4 * 4 + b0 % 4 * 16 / 16 = b0 := by omega
        rw [this]
      · rw [hstrip]; simp
      · intro c hc
        rw [henc] at hc
        rcases List.mem_append.mp hc with h | h
        · simp only [List.mem_cons, List.not_mem_nil, or_false] at h
          rcases h with h | h <;> exact Or.inl (h ▸ b64Char_mem _)
        · simp only [List.mem_cons, List.not_mem_nil, or_false] at h
          rcases h with h | h <;> exact Or.inr h
    · -- two trailing bytes: three characters and one padding char
      have h0 : b0 < 256 := hb b0 (by simp)
      have h1 : b1 < 256 := hb b1 (by simp)
      have henc : b64encode [b0, b1] =
          [b64Char (b0 / 4), b64Char (b0 % 4 * 16 + b1 / 16), b64Char (b1 % 16 * 4)]
            ++ [61] := by
        simp [b64encode]
      have hstrip : strip61 (b64encode [b0, b1]) =
          [b64Char (b0 / 4), b64Char (b0 % 4 * 16 + b1 / 16), b64Char (b1 % 16 * 4)] := by
        rw [henc, strip61_append_nil (by decide)]
        exact strip61_eq_self (by
          simp only [List.getLast?]
          intro h
          exact b64Char_ne61 _ (by injection h))
      refine ⟨?_, ?_, ?_⟩
      · rw [hstrip]
        have hi0 : b64Index (b64Char (b0 / 4)) = some (b0 / 4) :=
          b64Index_b64Char _ (by omega)
        have hi1 : b64Index (b64Char (b0 % 4 * 16 + b1 / 16)) = some (b0 % 4 * 16 + b1 / 16) :=
          b64Index_b64Char _ (by omega)
        have hi2 : b64Index (b64Char (b1 % 16 * 4)) = some (b1 % 16 * 4) :=
          b64Index_b64Char _ (by omega)
        simp only [mainDecode, hi0, hi1, hi2, Option.some.injEq]
        have e0 : b0 / 4 * 4 + (b0 % 4 * 16 + b1 / 16) / 16 = b0 := by omega
        have e1 : (b0 % 4 * 16 + b1 / 16) % 16 * 16 + b1 % 16 * 4 / 4 = b1 := by omega
        rw [e0, e1]
      · rw [hstrip]; simp
      · intro c hc
        rw [henc] at hc
        rcases List.mem_append.mp hc with h | h
        · simp only [List.mem_cons, List.not_mem_nil, or_false] at h
          rcases h with h | h | h <;> exact Or.inl (h ▸ b64Char_mem _)
        · simp only [List.mem_cons, List.not_mem_nil, or_false] at h
          exact Or.inr h
    · -- a full three-byte group followed by the rest
      have h0 : b0 < 256 := hb b0 (by simp)
      have h1 : b1 < 256 := hb b1 (by simp)
      have h2 : b2 < 256 := hb b2 (by simp)
      have hbrest : ∀ x ∈ rest, x < 256 := fun x hx => hb x (by simp [hx])
      have hlrest : rest.length ≤ n := by
        simp only [List.length_cons] at hlen; omega
      obtain ⟨ihm, ihmod, ihmem⟩ := ih rest hlrest hbrest
      have henc : b64encode (b0 :: b1 :: b2 :: rest) =
          [b64Char (b0 / 4), b64Char (b0 % 4 * 16 + b1 / 16),
           b64Char (b1 % 16 * 4 + b2 / 64), b64Char (b2 % 64)] ++ b64encode rest := by
        simp [b64encode]
      have hi0 : b64Index (b64Char (b0 / 4)) = some (b0 / 4) :=
        b64Index_b64Char _ (by omega)
      have hi1 : b64Index (b64Char (b0 % 4 * 16 + b1 / 16)) = some (b0 % 4 * 16 + b1 / 16) :=
        b64Index_b64Char _ (by omega)
      have hi2 : b64Index (b64Char (b1 % 16 * 4 + b2 / 64)) = some (b1 % 16 * 4 + b2 / 64) :=
        b64Index_b64Char _ (by omega)
      have hi3 : b64Index (b64Char (b2 % 64)) = some (b2 % 64) :=
        b64Index_b64Char _ (by omega)
      have e0 : b0 / 4 * 4 + (b0 % 4 * 16 + b1 / 16) / 16 = b0 := by omega
      have e1 : (b0 % 4 * 16 + b1 / 16) % 16 * 16 + (b1 % 16 * 4 + b2 / 64) / 4 = b1 := by
        omega
      have e2 : (b1 % 16 * 4 + b2 / 64) % 4 * 64 + b2 % 64 = b2 := by omega
      by_cases hr : rest = []
      · subst hr
        have hstrip : strip61 (b64encode [b0, b1, b2]) =
            [b64Char (b0 / 4), b64Char (b0 % 4 * 16 + b1 / 16),
             b64Char (b1 % 16 * 4 + b2 / 64), b64Char (b2 % 64)] := by
          rw [henc]
          rw [show b64encode [] = [] from rfl, List.append_nil]
          exact strip61_eq_self (by
            simp only [List.getLast?]
            intro h
            exact b64Char_ne61 _ (by injection h))
        refine ⟨?_, ?_, ?_⟩
        · rw [hstrip]
          simp only [mainDecode, hi0, hi1, hi2, hi3, Option.some.injEq]
          rw [e0, e1, e2]
        · rw [hstrip]; simp
        · intro c hc
          rw [henc] at hc
          rw [show b64encode [] = [] from rfl, List.append_nil] at hc
          simp only [List.mem_cons, List.not_mem_nil, or_false] at hc
          rcases hc with h | h | h | h <;> exact Or.inl (h ▸ b64Char_mem _)
      · have hsne : strip61 (b64encode rest) ≠ [] := strip61_b64encode_ne_nil hr
        have hstrip : strip61 (b64encode (b0 :: b1 :: b2 :: rest)) =
            [b64Char (b0 / 4), b64Char (b0 % 4 * 16 + b1 / 16),
             b64Char (b1 % 16 * 4 + b2 / 64), b64Char (b2 % 64)]
              ++ strip61 (b64encode rest) := by
          rw [henc, strip61_append hsne]
        refine ⟨?_, ?_, ?_⟩
        · rw [hstrip]
          simp only [List.cons_append, List.nil_append]
          simp only [mainDecode, hi0, hi1, hi2, hi3, ihm, Option.some.injEq]
          rw [e0, e1, e2]
        · rw [hstrip]
          simp only [List.length_append, List.length_cons, List.length_nil]
          omega
        · intro c hc
          rw [henc] at hc
          rcases List.mem_append.mp hc with h | h
          · simp only [List.mem_cons, List.not_mem_nil, or_false] at h
            rcases h with h | h | h | h <;> exact Or.inl (h ▸ b64Char_mem _)
          · exact ihmem c h

/-! ## Supporting lemmas: decodeUrl padding and forgiving-base64 unpadding -/

theorem stripPad12_eq_self {l : List Nat} (h : l.getLast? ≠ some 61) :
    stripPad12 l = l := by
  unfold stripPad12
  cases hr : l.reverse with
  | nil => rfl
  | cons c1 t =>
    have hc1 : c1 ≠ 61 := by
      intro hc
      exact h (by rw [← List.head?_reverse, hr, hc]; rfl)
    cases t with
    | nil => simp [hc1]
    | cons c2 r => simp [hc1]

theorem stripPad12_one {l : List Nat} (h : l.getLast? ≠ some 61) :
    stripPad12 (l ++ [61]) = l := by
  unfold stripPad12
  rw [List.reverse_append]
  cases hr : l.reverse with
  | nil =>
    have : l = [] := by simpa using congrArg List.reverse hr
    simp [this]
  | cons c2 r =>
    have hc2 : c2 ≠ 61 := by
      intro hc
      exact h (by rw [← List.head?_reverse, hr, hc]; rfl)
    have hl : l = r.reverse ++ [c2] := by
      rw [← List.reverse_reverse l, hr]; simp
    simp only [List.reverse_cons, List.reverse_nil, List.nil_append,
      List.cons_append, List.singleton_append]
    simp [hc2, hl]

theorem stripPad12_two (l : List Nat) : stripPad12 (l ++ [61, 61]) = l := by
  unfold stripPad12
  rw [List.reverse_append]
  simp

theorem atob_on_padded_encode (bs : List Nat) (hb : ∀ x ∈ bs, x < 256) :
    atobModel (padB64 (strip61 (b64encode bs))) = some bs := by
  obtain ⟨hm, hmod, hmem⟩ := b64_core bs.length bs le_rfl hb
  have hSmem : ∀ c ∈ strip61 (b64encode bs), c ∈ b64Table ∨ c = 61 :=
    fun c hc => hmem c (strip61_mem hc)
  have hlast : (strip61 (b64encode bs)).getLast? ≠ some 61 :=
    strip61_getLast (b64encode bs)
  have hws : ∀ c ∈ padB64 (strip61 (b64encode bs)), (!isB64Ws c) = true := by
    intro c hc
    rcases List.mem_append.mp hc with h | h
    · rcases hSmem c h with h2 | h2
      · rw [(b64Table_props c h2).2.2.2]; rfl
      · subst h2; rfl
    · have : c = 61 := List.eq_of_mem_replicate h
      subst this; rfl
  unfold atobModel
  simp only [List.filter_eq_self.mpr hws]
  have hlen : (padB64 (strip61 (b64encode bs))).length % 4 = 0 := by
    simp only [padB64, List.length_append, List.length_replicate]
    omega
  rw [if_pos hlen]
  have hstrip : stripPad12 (padB64 (strip61 (b64encode bs)))
      = strip61 (b64encode bs) := by
    have hk : (4 - (strip61 (b64encode bs)).length % 4) % 4 = 0 ∨
        (4 - (strip61 (b64encode bs)).length % 4) % 4 = 1 ∨
        (4 - (strip61 (b64encode bs)).length % 4) % 4 = 2 := by
      omega
    unfold padB64
    rcases hk with h | h | h
    · rw [h]
      simpa using stripPad12_eq_self hlast
    · rw [h]
      simpa using stripPad12_one hlast
    · rw [h]
      simpa using stripPad12_two (strip61 (b64encode bs))
  rw [hstrip, if_neg (by omega)]
  exact hm

/-! ## Supporting lemmas: UTF-8 round trip on valid scalars -/

theorem utf8Decode_nil : utf8Decode [] = [] := by
  simp [utf8Decode]

theorem utf8Decode_cons (b : Nat) (rest : List Nat) :
    utf8Decode (b :: rest)
      = (utf8Step b rest).1 :: utf8Decode (rest.drop (utf8Step b rest).2) := by
  simp [utf8Decode]

theorem utf8Decode_encodeChar (c : Nat) (rest : List Nat) (h : validScalar c) :
    utf8Decode (utf8EncodeChar c ++ rest) = c :: utf8Decode rest := by
  obtain ⟨hlt, hsur⟩ := h
  by_cases h1 : c < 128
  · have he : utf8EncodeChar c = [c] := by
      unfold utf8EncodeChar
      rw [if_pos h1]
    have hstep : utf8Step c rest = (c, 0) := by
      unfold utf8Step
      rw [if_pos h1]
    rw [he, List.singleton_append, utf8Decode_cons, hstep]
    simp
  · by_cases h2 : c < 2048
    · have he : utf8EncodeChar c = [192 + c / 64, 128 + c % 64] := by
        unfold utf8EncodeChar
        rw [if_neg h1, if_pos h2]
      have hcont : isCont (128 + c % 64) = true := by
        unfold isCont
        simp only [decide_eq_true_eq]
        omega
      have hstep : utf8Step (192 + c / 64) ((128 + c % 64) :: rest) = (c, 1) := by
        unfold utf8Step
        rw [if_neg (by omega), if_neg (by omega), if_pos (by omega)]
        simp only [hcont, if_true]
        rw [Prod.mk.injEq]
        constructor
        · omega
        · rfl
      rw [he, List.cons_append, List.singleton_append, utf8Decode_cons, hstep]
      simp [List.drop]
    · by_cases h3 : c < 65536
      · have he : utf8EncodeChar c
            = [224 + c / 4096, 128 + c / 64 % 64, 128 + c % 64] := by
          unfold utf8EncodeChar
          rw [if_neg h1, if_neg h2, if_pos h3]
        have hcond : (cont3 (224 + c / 4096) (128 + c / 64 % 64)
            && isCont (128 + c % 64)) = true := by
          unfold cont3 isCont
          split_ifs with hA hB <;>
            simp only [Bool.and_eq_true, decide_eq_true_eq] <;>
            constructor <;> omega
        have hstep : utf8Step (224 + c / 4096)
            ((128 + c / 64 % 64) :: (128 + c % 64) :: rest) = (c, 2) := by
          unfold utf8Step
          rw [if_neg (by omega), if_neg (by omega), if_neg (by omega),
            if_pos (by omega)]
          simp only [hcond, if_true]
          rw [Prod.mk.injEq]
          constructor
          · omega
          · rfl
        rw [he, List.cons_append, List.cons_append, List.singleton_append,
          utf8Decode_cons, hstep]
        simp [List.drop]
      · have he : utf8EncodeChar c
            = [240 + c / 262144, 128 + c / 4096 % 64, 128 + c / 64 % 64,
               128 + c % 64] := by
          unfold utf8EncodeChar
          rw [if_neg h1, if_neg h2, if_neg h3]
        have hcond : (cont4 (240 + c / 262144) (128 + c / 4096 % 64)
            && isCont (128 + c / 64 % 64) && isCont (128 + c % 64)) = true := by
          unfold cont4 isCont
          split_ifs with hA hB <;>
            simp only [Bool.and_eq_true, decide_eq_true_eq] <;>
            refine ⟨⟨?_, ?_⟩, ?_⟩ <;> omega
        have hstep : utf8Step (240 + c / 262144)
            ((128 + c / 4096 % 64) :: (128 + c / 64 % 64) :: (128 + c % 64)
              :: rest) = (c, 3) := by
          unfold utf8Step
          rw [if_neg (by omega), if_neg (by omega), if_neg (by omega),
            if_neg (by omega), if_pos (by omega)]
          simp only [hcond, if_true]
          rw [Prod.mk.injEq]
          constructor
          · omega
          · rfl
        rw [he, List.cons_append, List.cons_append, List.cons_append,
          List.singleton_append, utf8Decode_cons, hstep]
        simp [List.drop]

theorem utf8_roundtrip (t : List Nat) (ht : ∀ c ∈ t, validScalar c) :
    utf8Decode (utf8Encode t) = t := by
  induction t with
  | nil => exact utf8Decode_nil
  | cons c rest ih =>
    have hc : validScalar c := ht c (by simp)
    have hrest : ∀ x ∈ rest, validScalar x := fun x hx => ht x (by simp [hx])
    simp only [utf8Encode]
    rw [utf8Decode_encodeChar c (utf8Encode rest) hc, ih hrest]

/-! ## Supporting lemmas: the URL-safe substitution -/

theorem subst_beq61 (c : Nat) : (subst c == 61) = (c == 61) := by
  unfold subst
  split_ifs with hA hB
  · subst hA; rfl
  · subst hB; rfl
  · rfl

theorem unsubst_subst {c : Nat} (h1 : c ≠ 45) (h2 : c ≠ 95) :
    unsubst (subst c) = c := by
  unfold subst unsubst
  split_ifs <;> omega

theorem fromCharCode_id {l : List Nat} (h : ∀ x ∈ l, x < 256) :
    fromCharCodeList l = l := by
  unfold fromCharCodeList
  induction l with
  | nil => rfl
  | cons x xs ih =>
    simp only [List.map_cons]
    rw [Nat.mod_eq_of_lt (by have := h x (by simp); omega),
      ih (fun y hy => h y (by simp [hy]))]

/-! ## Claim theorems: the codec -/

/-- C1: with the compression collaborator satisfying its contract, decoding
the fragment produced by encoding any valid document text yields exactly
that text: the pipeline compress, chunked binary-to-string, base64 with
plus-to-hyphen and slash-to-underscore substitution and padding stripped,
then its inverse (restore padding, reverse substitution, atob, decompress,
UTF-8 decode) is the identity, including on the empty text and on texts
with embedded newlines and multi-byte characters. -/
theorem encode_decode_roundtrip (zc : List Nat → Nat → List Nat)
    (zd : List Nat → Option (List Nat)) (t : List Nat)
    (ht : ∀ c ∈ t, validScalar c)
    (hbytes : ∀ x ∈ zc (utf8Encode t) 4, x < 256)
    (hzstd : zd (zc (utf8Encode t) 4) = some (utf8Encode t)) :
    (encodeFull zc t).bind (decodeFull zd) = some t := by
  have hchunk : chunkedBinaryString (zc (utf8Encode t) 4)
      = zc (utf8Encode t) 4 := by
    rw [chunked_eq_map]
    exact fromCharCode_id hbytes
  have hall : (zc (utf8Encode t) 4).all (fun c => decide (c < 256)) = true := by
    rw [List.all_eq_true]
    intro x hx
    exact decide_eq_true (hbytes x hx)
  have henc : encodeFull zc t
      = some (strip61 ((b64encode (zc (utf8Encode t) 4)).map subst)) := by
    unfold encodeFull btoaModel
    rw [hchunk, if_pos hall]
  rw [henc, Option.some_bind]
  obtain ⟨hm, hmod, hmem⟩ :=
    b64_core (zc (utf8Encode t) 4).length (zc (utf8Encode t) 4) le_rfl hbytes
  have hsubstmap : strip61 ((b64encode (zc (utf8Encode t) 4)).map subst)
      = (strip61 (b64encode (zc (utf8Encode t) 4))).map subst :=
    strip61_map subst_beq61 _
  have hunsub : ((strip61 (b64encode (zc (utf8Encode t) 4))).map subst).map unsubst
      = strip61 (b64encode (zc (utf8Encode t) 4)) := by
    rw [List.map_map]
    have hpt : ∀ c ∈ strip61 (b64encode (zc (utf8Encode t) 4)),
        (unsubst ∘ subst) c = id c := by
      intro c hc
      rcases hmem c (strip61_mem hc) with h | h
      · have hp := b64Table_props c h
        exact unsubst_subst hp.2.1 hp.2.2.1
      · subst h; rfl
    rw [List.map_congr_left hpt, List.map_id]
  unfold decodeFull
  rw [hsubstmap, hunsub, atob_on_padded_encode _ hbytes]
  simp only [hzstd]
  rw [utf8_roundtrip t ht]

/-- Witness: the concrete text with a newline and two-, three- and four-byte
characters round-trips with the identity compressor. -/
theorem encode_decode_roundtrip_witness :
    (encodeFull (fun b _ => b) [104, 10, 955, 8364, 128512]).bind
        (decodeFull (fun b => some b)) = some [104, 10, 955, 8364, 128512] :=
  encode_decode_roundtrip (fun b _ => b) (fun b => some b)
    [104, 10, 955, 8364, 128512] (by decide) (by decide) rfl

/-- C3: whenever base64 decoding or decompression fails on a fragment
(truncated, tampered or non-base64 input), decode returns failure rather
than crashing — a stage failure propagates to a `none` overall result — and
the caller then puts the non-empty corruption placeholder document in the
editor instead of empty content.  (UTF-8 decoding, run without the fatal
flag, substitutes replacement characters and cannot fail.) -/
theorem corrupt_payload_placeholder :
    ∀ (zd : List Nat → Option (List Nat)) (hash : List Nat),
      (atobModel (padB64 (hash.map unsubst)) = none → decodeFull zd hash = none) ∧
      (∀ b, atobModel (padB64 (hash.map unsubst)) = some b → zd b = none →
        decodeFull zd hash = none) ∧
      (decodeFull zd hash = none →
        editorAfterDecode zd hash = corruptPlaceholder ∧
        corruptPlaceholder ≠ []) := by
  intro zd hash
  refine ⟨?_, ?_, ?_⟩
  · intro h
    unfold decodeFull
    rw [h]
  · intro b h1 h2
    unfold decodeFull
    rw [h1]
    simp only [h2]
  · intro h
    unfold editorAfterDecode
    rw [h]
    exact ⟨by decide, by decide⟩

/-- Witness: the one-character fragment with an exclamation mark (not a
base64 character) fails to decode and the editor gets the placeholder. -/
theorem corrupt_payload_placeholder_witness :
    editorAfterDecode (fun b => some b) [33] = corruptPlaceholder ∧
    corruptPlaceholder ≠ [] :=
  (corrupt_payload_placeholder (fun b => some b) [33]).2.2 (by decide)

/-- C6: for every non-empty text, a successfully produced fragment contains
no plus (43) and no slash (47), and does not end in a padding equals
sign (61). -/
theorem fragment_is_urlsafe (zc : List Nat → Nat → List Nat) (t : List Nat)
    (hne : t ≠ []) :
    ∀ frag, encodeFull zc t = some frag →
      (∀ c ∈ frag, c ≠ 43 ∧ c ≠ 47) ∧ frag.getLast? ≠ some 61 := by
  intro frag hf
  unfold encodeFull at hf
  rcases hbt : btoaModel (chunkedBinaryString (zc (utf8Encode t) 4)) with _ | b64
  · rw [hbt] at hf
    exact absurd hf (by simp)
  · rw [hbt] at hf
    have hfrag : frag = strip61 (b64.map subst) := by
      injection hf with h
      exact h.symm
    subst hfrag
    refine ⟨?_, strip61_getLast _⟩
    intro c hc
    obtain ⟨y, -, hy⟩ := List.mem_map.mp (strip61_mem hc)
    subst hy
    unfold subst
    split_ifs <;> omega

/-- Witness: the two-character text "hi" produces the fragment "aGk"
(codes 97, 71, 107), which contains no plus or slash and has no trailing
equals. -/
theorem fragment_is_urlsafe_witness :
    (∀ c ∈ ([97, 71, 107] : List Nat), c ≠ 43 ∧ c ≠ 47) ∧
    ([97, 71, 107] : List Nat).getLast? ≠ some 61 :=
  fragment_is_urlsafe (fun b _ => b) [104, 105] (by decide) [97, 71, 107]
    (by unfold encodeFull; rw [chunked_eq_map]; decide)
